import Mathlib

/-!
Verification of the associative-container library (`dataStructures.ts`).

Model conventions:
* A JS value of type `T | undefined` is modelled as `Option V`; `none` is the
  absent sentinel `undefined`.
* The fallback (shim) containers store their entries in a dictionary-mode
  object holding only own properties; we model that storage as an association
  list in property insertion order.  Assigning to an existing property keeps
  its position; assigning a fresh property appends at the end.
* `forEach` and `for ... in` visit the entries of that list in order.
* The dictionary-mode layout hint (`map["__"] = undefined; delete map["__"]`)
  has no functional effect and therefore no counterpart in the model.
-/

namespace Ts

/-- JS property assignment `data[k] = v` on a plain object: overwrite in place
if the key is already an own property, otherwise append a new property. -/
def assocSet {κ α : Type} [BEq κ] (data : List (κ × α)) (k : κ) (v : α) :
    List (κ × α) :=
  if data.any (fun e => e.1 == k) then
    data.map (fun e => if e.1 == k then (k, v) else e)
  else
    data ++ [(k, v)]

theorem any_eq_isSome_find? {α : Type} (l : List α) (p : α → Bool) :
    l.any p = (l.find? p).isSome := by
  induction l with
  | nil => rfl
  | cons x xs ih =>
    by_cases h : p x
    · simp [List.find?_cons, h]
    · simp only [Bool.not_eq_true] at h
      simp [List.find?_cons, h, ih]

theorem find?_map_overwrite {κ α : Type} [BEq κ] [LawfulBEq κ]
    (data : List (κ × α)) (k : κ) (v : α) (h : data.any (fun e => e.1 == k)) :
    ((data.map (fun e => if e.1 == k then (k, v) else e)).find?
      (fun e => e.1 == k)) = some (k, v) := by
  induction data with
  | nil => simp at h
  | cons e rest ih =>
    by_cases hk : (e.1 == k) = true
    · simp [List.find?_cons, hk]
    · simp only [Bool.not_eq_true] at hk
      simp only [List.any_cons, hk, Bool.false_or] at h
      simp [List.find?_cons, hk, ih h]

theorem find?_map_overwrite_ne {κ α : Type} [BEq κ] [LawfulBEq κ]
    (data : List (κ × α)) (k k' : κ) (v : α) (hne : (k == k') = false) :
    ((data.map (fun e => if e.1 == k then (k, v) else e)).find?
      (fun e => e.1 == k')) = data.find? (fun e => e.1 == k') := by
  induction data with
  | nil => rfl
  | cons e rest ih =>
    by_cases hk : (e.1 == k) = true
    · have h1 : e.1 = k := eq_of_beq hk
      have h2 : (e.1 == k') = false := by rw [h1]; exact hne
      simp [List.find?_cons, hk, h2, hne, ih]
    · simp only [Bool.not_eq_true] at hk
      by_cases hk' : (e.1 == k') = true
      · simp [List.find?_cons, hk, hk']
      · simp only [Bool.not_eq_true] at hk'
        simp [List.find?_cons, hk, hk', ih]

theorem find?_assocSet_self {κ α : Type} [BEq κ] [LawfulBEq κ]
    (data : List (κ × α)) (k : κ) (v : α) :
    ((assocSet data k v).find? (fun e => e.1 == k)) = some (k, v) := by
  unfold assocSet
  by_cases h : data.any (fun e => e.1 == k) = true
  · simpa [h] using find?_map_overwrite data k v h
  · simp only [Bool.not_eq_true] at h
    have hnone : data.find? (fun e => e.1 == k) = none := by
      rw [List.find?_eq_none]
      intro x hx hpx
      have : data.any (fun e => e.1 == k) = true := by
        rw [List.any_eq_true]; exact ⟨x, hx, hpx⟩
      simp [this] at h
    simp [h, List.find?_append, hnone, List.find?_cons]

theorem find?_assocSet_ne {κ α : Type} [BEq κ] [LawfulBEq κ]
    (data : List (κ × α)) (k k' : κ) (v : α) (hne : (k == k') = false) :
    ((assocSet data k v).find? (fun e => e.1 == k')) =
      data.find? (fun e => e.1 == k') := by
  unfold assocSet
  by_cases h : data.any (fun e => e.1 == k) = true
  · simpa [h] using find?_map_overwrite_ne data k k' v hne
  · simp [h, List.find?_append, List.find?_cons, hne]

/-- Fallback string-keyed map (`ShimStringMap` in `dataStructures.ts`,
`ShimMap` in the older copy of the file): a dictionary-mode object with
string keys.  Stored values live in `Option V` so that storing the JS value
`undefined` is representable. -/
structure ShimStringMap (V : Type) where
  data : List (String × Option V)
deriving DecidableEq

namespace ShimStringMap

/-- The constructor starts from a fresh dictionary-mode object. -/
def empty {V : Type} : ShimStringMap V := ⟨[]⟩

/-- Source: `clear() { this.data = createDictionaryModeObject(); }` — the
whole backing record is replaced by a fresh one. -/
def clear {V : Type} (_m : ShimStringMap V) : ShimStringMap V := ⟨[]⟩

/-- Source: `delete(key) { delete this.data[key]; }`. -/
def delete {V : Type} (m : ShimStringMap V) (key : String) : ShimStringMap V :=
  ⟨m.data.filter (fun e => !(e.1 == key))⟩

/-- Source: `get(key) { return this.data[key]; }` — `undefined` (`none`) when
the key is not an own property of the backing record. -/
def get {V : Type} (m : ShimStringMap V) (key : String) : Option V :=
  match m.data.find? (fun e => e.1 == key) with
  | some e => e.2
  | none => none

/-- Source: `has(key) { return key in this.data; }`; the backing record has a
null prototype, so `in` sees exactly the own properties. -/
def has {V : Type} (m : ShimStringMap V) (key : String) : Bool :=
  m.data.any (fun e => e.1 == key)

/-- Source: `set(key, value) { this.data[key] = value; }`. -/
def set {V : Type} (m : ShimStringMap V) (key : String) (value : Option V) :
    ShimStringMap V :=
  ⟨assocSet m.data key value⟩

/-- Well-formedness: a JS object cannot have two own properties with the same
name, so the association list has pairwise distinct keys. -/
def WF {V : Type} (m : ShimStringMap V) : Prop :=
  (m.data.map Prod.fst).Nodup

theorem get_eq_find? {V : Type} (m : ShimStringMap V) (key : String) :
    m.get key = match m.data.find? (fun e => e.1 == key) with
      | some e => e.2
      | none => none := rfl

theorem has_eq_isSome {V : Type} (m : ShimStringMap V) (key : String) :
    m.has key = (m.data.find? (fun e => e.1 == key)).isSome :=
  any_eq_isSome_find? m.data _

theorem has_set_self {V : Type} (m : ShimStringMap V) (k : String)
    (v : Option V) : (m.set k v).has k = true := by
  rw [has_eq_isSome]
  show ((assocSet m.data k v).find? _).isSome = true
  rw [find?_assocSet_self]
  rfl

theorem get_set_self {V : Type} (m : ShimStringMap V) (k : String)
    (v : Option V) : (m.set k v).get k = v := by
  show (match (assocSet m.data k v).find? (fun e => e.1 == k) with
    | some e => e.2 | none => none) = v
  rw [find?_assocSet_self]

theorem has_set_ne {V : Type} (m : ShimStringMap V) (k k' : String)
    (v : Option V) (hne : (k == k') = false) :
    (m.set k v).has k' = m.has k' := by
  rw [has_eq_isSome, has_eq_isSome]
  show ((assocSet m.data k v).find? _).isSome = _
  rw [find?_assocSet_ne m.data k k' v hne]

theorem get_set_ne {V : Type} (m : ShimStringMap V) (k k' : String)
    (v : Option V) (hne : (k == k') = false) :
    (m.set k v).get k' = m.get k' := by
  show (match (assocSet m.data k v).find? (fun e => e.1 == k') with
    | some e => e.2 | none => none) = m.get k'
  rw [find?_assocSet_ne m.data k k' v hne]
  rfl

theorem has_delete_self {V : Type} (m : ShimStringMap V) (k : String) :
    (m.delete k).has k = false := by
  show (m.data.filter _).any (fun e => e.1 == k) = false
  rw [Bool.eq_false_iff]
  intro hany
  rw [List.any_eq_true] at hany
  obtain ⟨e, he, hpe⟩ := hany
  rw [List.mem_filter] at he
  simp [hpe] at he

theorem get_delete_self {V : Type} (m : ShimStringMap V) (k : String) :
    (m.delete k).get k = none := by
  show (match (m.data.filter _).find? (fun e => e.1 == k) with
    | some e => e.2 | none => none) = none
  have : (m.data.filter (fun e => !(e.1 == k))).find? (fun e => e.1 == k)
      = none := by
    rw [List.find?_eq_none]
    intro x hx
    rw [List.mem_filter] at hx
    simp only [Bool.not_eq_true'] at hx
    simp [hx.2]
  rw [this]

theorem find?_filter_ne {V : Type} (data : List (String × Option V))
    (k k' : String) (hne : (k == k') = false) :
    ((data.filter (fun e => !(e.1 == k))).find? (fun e => e.1 == k')) =
      data.find? (fun e => e.1 == k') := by
  induction data with
  | nil => rfl
  | cons e rest ih =>
    by_cases hk : (e.1 == k) = true
    · have h1 : e.1 = k := eq_of_beq hk
      have h2 : (e.1 == k') = false := by rw [h1]; exact hne
      simp [List.filter_cons, hk, List.find?_cons, h2, ih]
    · simp only [Bool.not_eq_true] at hk
      by_cases hk' : (e.1 == k') = true
      · simp [List.filter_cons, hk, List.find?_cons, hk']
      · simp only [Bool.not_eq_true] at hk'
        simp [List.filter_cons, hk, List.find?_cons, hk', ih]

theorem has_delete_ne {V : Type} (m : ShimStringMap V) (k k' : String)
    (hne : (k == k') = false) : (m.delete k).has k' = m.has k' := by
  rw [has_eq_isSome, has_eq_isSome]
  show ((m.data.filter _).find? _).isSome = _
  rw [find?_filter_ne m.data k k' hne]

theorem get_delete_ne {V : Type} (m : ShimStringMap V) (k k' : String)
    (hne : (k == k') = false) : (m.delete k).get k' = m.get k' := by
  show (match (m.data.filter _).find? (fun e => e.1 == k') with
    | some e => e.2 | none => none) = m.get k'
  rw [find?_filter_ne m.data k k' hne]
  rfl

theorem get_eq_none_of_has_eq_false {V : Type} (m : ShimStringMap V)
    (k : String) (h : m.has k = false) : m.get k = none := by
  rw [has_eq_isSome] at h
  rw [get_eq_find?]
  cases hf : m.data.find? (fun e => e.1 == k) with
  | none => rfl
  | some e => rw [hf] at h; simp at h

end ShimStringMap

theorem ShimStringMap.WF_set {V : Type} (m : ShimStringMap V) (k : String)
    (v : Option V) (h : m.WF) : (m.set k v).WF := by
  show ((assocSet m.data k v).map Prod.fst).Nodup
  unfold assocSet
  by_cases hany : m.data.any (fun e => e.1 == k) = true
  · have hmap : (m.data.map (fun e => if e.1 == k then (k, v) else e)).map
        Prod.fst = m.data.map Prod.fst := by
      rw [List.map_map]
      apply List.map_congr_left
      intro e _
      by_cases he : (e.1 == k) = true
      · simp [Function.comp, he, (eq_of_beq he).symm]
      · simp only [Bool.not_eq_true] at he
        simp [Function.comp, he]
    rw [if_pos hany, hmap]
    exact h
  · have hk : k ∉ m.data.map Prod.fst := by
      intro hmem
      rw [List.mem_map] at hmem
      obtain ⟨e, he, hfst⟩ := hmem
      have : m.data.any (fun e => e.1 == k) = true := by
        rw [List.any_eq_true]
        exact ⟨e, he, by simp [hfst]⟩
      exact hany this
    rw [if_neg hany, List.map_append]
    rw [List.nodup_append]
    exact ⟨h, List.nodup_singleton k, by simpa using hk⟩

theorem ShimStringMap.WF_delete {V : Type} (m : ShimStringMap V)
    (k : String) (h : m.WF) : (m.delete k).WF := by
  show ((m.data.filter _).map Prod.fst).Nodup
  exact ((List.filter_sublist m.data).map Prod.fst).nodup h

/-- Source: `setAndReturn(map, key, value)` sets the entry and returns the
value; modelled as returning the updated map together with the value. -/
def setAndReturn {V : Type} (m : ShimStringMap V) (key : String)
    (value : Option V) : ShimStringMap V × Option V :=
  (m.set key value, value)

/-- C1: for the fallback string map, immediately after `set(k, v)`, `has(k)`
is true and `get(k)` returns `v`; immediately after `delete(k)`, `has(k)` is
false and `get(k)` returns the absent sentinel `undefined` (`none`). -/
theorem stringMap_set_delete_contract {V : Type} (m : ShimStringMap V)
    (k : String) (v : Option V) :
    (m.set k v).has k = true ∧ (m.set k v).get k = v ∧
    (m.delete k).has k = false ∧ (m.delete k).get k = none :=
  ⟨m.has_set_self k v, m.get_set_self k v,
   m.has_delete_self k, m.get_delete_self k⟩

/-- C9: in the fallback string map, an entry whose stored value is
`undefined` is indistinguishable from an absent entry through `get` alone:
after `set(k, undefined)`, `has(k)` is true while `get(k)` returns
`undefined` — exactly what `get` returns for any key that is not present. -/
theorem set_undefined_looks_absent_through_get {V : Type}
    (m : ShimStringMap V) (k : String) (m' : ShimStringMap V) (k' : String)
    (h : m'.has k' = false) :
    (m.set k none).has k = true ∧ (m.set k none).get k = none ∧
    m'.get k' = none :=
  ⟨m.has_set_self k none, m.get_set_self k none,
   m'.get_eq_none_of_has_eq_false k' h⟩

/-- Witness for C9 at a concrete map and keys. -/
theorem set_undefined_looks_absent_through_get_witness :
    ((ShimStringMap.mk [("b", some 3)]).set "a" none).has "a" = true ∧
    ((ShimStringMap.mk [("b", some 3)]).set "a" none).get "a" = none ∧
    (ShimStringMap.mk [("b", some (3 : Nat))]).get "c" = none :=
  set_undefined_looks_absent_through_get (ShimStringMap.mk [("b", some 3)])
    "a" (ShimStringMap.mk [("b", some (3 : Nat))]) "c" (by decide)

/-! ### Early-exit search family: the two execution strategies

Each algorithm has a fully-featured-iterator branch (chosen when the native
map exposes `keys`/`values`/`entries` iterators) and a `forEach`-fallback
branch.  Both are modelled as functions of the traversal sequence of the map
(the list of entries that `entries()` / `forEach` visits, in order), so the
two branches of one algorithm can be compared on the same map. -/

/-- Source: `someInIterator(iter, predicate)` — the early-exit loop over a
produces-one-at-a-time iterator, modelled on the list of produced values. -/
def someInIterator {α : Type} (iter : List α) (predicate : α → Bool) : Bool :=
  match iter with
  | [] => false
  | value :: rest =>
    if predicate value then true else someInIterator rest predicate

/-- Fully-featured branch of `findInMap`: walk `map.entries()` and return at
the first entry where `f` produces a defined result. -/
def findInMapFF {V U : Type} (entries : List (String × Option V))
    (f : Option V → String → Option U) : Option U :=
  match entries with
  | [] => none
  | (key, value) :: rest =>
    match f value key with
    | some result => some result
    | none => findInMapFF rest f

/-- Fallback branch of `findInMap`: a full `forEach` traversal that only
writes `result` while it is still `undefined`. -/
def findInMapFB {V U : Type} (entries : List (String × Option V))
    (f : Option V → String → Option U) : Option U :=
  entries.foldl
    (fun result e => if result.isNone then f e.2 e.1 else result) none

/-- Fully-featured branch of `someInMap`: `someInIterator` over
`map.entries()`. -/
def someInMapFF {V : Type} (entries : List (String × Option V))
    (predicate : String → Option V → Bool) : Bool :=
  someInIterator entries (fun e => predicate e.1 e.2)

/-- Fallback branch of `someInMap`: full `forEach` traversal accumulating
`found = found || predicate(key, value)`. -/
def someInMapFB {V : Type} (entries : List (String × Option V))
    (predicate : String → Option V → Bool) : Bool :=
  entries.foldl (fun found e => found || predicate e.1 e.2) false

/-- Fully-featured branch of `someKeyInMap`: `someInIterator` over
`map.keys()`. -/
def someKeyInMapFF {V : Type} (entries : List (String × Option V))
    (predicate : String → Bool) : Bool :=
  someInIterator (entries.map Prod.fst) predicate

/-- Fallback branch of `someKeyInMap`: it is `someInMap` itself (the extra
value argument passed to the predicate is ignored). -/
def someKeyInMapFB {V : Type} (entries : List (String × Option V))
    (predicate : String → Bool) : Bool :=
  someInMapFB entries (fun key _ => predicate key)

/-- Fully-featured branch of `someValueInMap`: `someInIterator` over
`map.values()`. -/
def someValueInMapFF {V : Type} (entries : List (String × Option V))
    (predicate : Option V → Bool) : Bool :=
  someInIterator (entries.map Prod.snd) predicate

/-- Fallback branch of `someValueInMap`: `someInMap` with a predicate that
ignores the key. -/
def someValueInMapFB {V : Type} (entries : List (String × Option V))
    (predicate : Option V → Bool) : Bool :=
  someInMapFB entries (fun _ value => predicate value)

theorem someInIterator_eq_any {α : Type} (l : List α) (p : α → Bool) :
    someInIterator l p = l.any p := by
  induction l with
  | nil => rfl
  | cons x xs ih =>
    by_cases h : p x
    · simp [someInIterator, h]
    · simp only [Bool.not_eq_true] at h
      simp [someInIterator, h, ih]

theorem foldl_or_eq {α : Type} (l : List α) (p : α → Bool) (b : Bool) :
    l.foldl (fun found x => found || p x) b = (b || l.any p) := by
  induction l generalizing b with
  | nil => simp
  | cons x xs ih =>
    simp only [List.foldl_cons, List.any_cons, ih, Bool.or_assoc]

theorem any_of_map {α β : Type} (f : α → β) (l : List α) (p : β → Bool) :
    (l.map f).any p = l.any (fun x => p (f x)) := by
  induction l with
  | nil => rfl
  | cons x xs ih => simp [ih]

theorem someInMapFB_eq_any {V : Type} (entries : List (String × Option V))
    (p : String → Option V → Bool) :
    someInMapFB entries p = entries.any (fun e => p e.1 e.2) := by
  unfold someInMapFB
  rw [foldl_or_eq]
  simp

theorem findInMapFB_foldl_some {V U : Type}
    (entries : List (String × Option V)) (f : Option V → String → Option U)
    (r : U) :
    entries.foldl (fun result e => if result.isNone then f e.2 e.1 else result)
      (some r) = some r := by
  induction entries with
  | nil => rfl
  | cons e rest ih => simpa using ih

/-- C2: for every map (that is, every traversal sequence of entries) and
every function, the fully-featured-iterator branch and the forEach-fallback
branch of each member of the early-exit family return the same result:
`findInMap`, `someInMap`, `someKeyInMap` and `someValueInMap`. -/
theorem earlyExit_strategies_agree {V U : Type}
    (entries : List (String × Option V)) (f : Option V → String → Option U)
    (p : String → Option V → Bool) (q : String → Bool)
    (r : Option V → Bool) :
    findInMapFF entries f = findInMapFB entries f ∧
    someInMapFF entries p = someInMapFB entries p ∧
    someKeyInMapFF entries q = someKeyInMapFB entries q ∧
    someValueInMapFF entries r = someValueInMapFB entries r := by
  refine ⟨?_, ?_, ?_, ?_⟩
  · induction entries with
    | nil => rfl
    | cons e rest ih =>
      obtain ⟨key, value⟩ := e
      show (match f value key with
        | some result => some result
        | none => findInMapFF rest f) = _
      unfold findInMapFB
      cases hf : f value key with
      | some result =>
        simp [List.foldl_cons, hf, findInMapFB_foldl_some]
      | none =>
        simpa [List.foldl_cons, hf] using ih
  · rw [someInMapFB_eq_any]
    unfold someInMapFF
    exact someInIterator_eq_any entries _
  · unfold someKeyInMapFF someKeyInMapFB
    rw [someInMapFB_eq_any, someInIterator_eq_any, any_of_map]
  · unfold someValueInMapFF someValueInMapFB
    rw [someInMapFB_eq_any, someInIterator_eq_any, any_of_map]

/-! ### Map equality (`_equalMaps`) -/

theorem ShimStringMap.has_iff_exists {V : Type} (m : ShimStringMap V)
    (k : String) : m.has k = true ↔ ∃ v, (k, v) ∈ m.data := by
  unfold has
  rw [List.any_eq_true]
  constructor
  · rintro ⟨e, he, hpe⟩
    exact ⟨e.2, by rwa [show (k, e.2) = e from Prod.ext (eq_of_beq hpe).symm rfl]⟩
  · rintro ⟨v, hv⟩
    exact ⟨(k, v), hv, by simp⟩

theorem ShimStringMap.get_of_mem {V : Type} (m : ShimStringMap V)
    (hWF : m.WF) (k : String) (v : Option V) (hmem : (k, v) ∈ m.data) :
    m.get k = v := by
  obtain ⟨data⟩ := m
  unfold WF at hWF
  show (match data.find? (fun e => e.1 == k) with
    | some e => e.2 | none => none) = v
  induction data with
  | nil => simp at hmem
  | cons e rest ih =>
    simp only [List.map_cons, List.nodup_cons] at hWF
    rcases List.mem_cons.mp hmem with heq | hmem'
    · rw [← heq]
      simp [List.find?_cons]
    · by_cases hk : (e.1 == k) = true
      · exfalso
        apply hWF.1
        rw [eq_of_beq hk]
        exact List.mem_map.mpr ⟨(k, v), hmem', rfl⟩
      · simp only [Bool.not_eq_true] at hk
        simp only [List.find?_cons, hk]
        exact ih hWF.2 hmem'

theorem ShimStringMap.mem_data_iff {V : Type} (m : ShimStringMap V)
    (hWF : m.WF) (k : String) (v : Option V) :
    (k, v) ∈ m.data ↔ (m.has k = true ∧ m.get k = v) := by
  constructor
  · intro hmem
    exact ⟨(m.has_iff_exists k).mpr ⟨v, hmem⟩, m.get_of_mem hWF k v hmem⟩
  · rintro ⟨hhas, hget⟩
    rw [has_eq_isSome] at hhas
    cases hf : m.data.find? (fun e => e.1 == k) with
    | none => rw [hf] at hhas; simp at hhas
    | some e =>
      have he : e ∈ m.data := List.mem_of_find?_eq_some hf
      have hk : e.1 = k := by
        have h1 := List.find?_some hf
        simp only [beq_iff_eq] at h1
        exact h1
      have hv : e.2 = v := by
        rw [get_eq_find?, hf] at hget
        exact hget
      rwa [show (k, v) = e from Prod.ext hk.symm hv.symm]

/-- Source: `_equalMaps(left, right, equalityComparer?)`.  The shim has no
native iterators, so `someInMap` and `someKeyInMap` resolve to their
`forEach`-fallback branches.  The reference-identity test `left === right`
is modelled as structural equality of the model values, and an absent
(`null`/`undefined`) argument as `none`. -/
def _equalMaps {V : Type} [DecidableEq V]
    (left right : Option (ShimStringMap V))
    (equalityComparer : Option (Option V → Option V → Bool)) : Bool :=
  if left = right then true
  else
    match left, right with
    | some l, some r =>
      let someInLeftHasNoMatch := someInMapFB l.data
        (fun leftKey leftValue =>
          if !(r.has leftKey) then true
          else
            let rightValue := r.get leftKey
            !(match equalityComparer with
              | some c => c leftValue rightValue
              | none => leftValue == rightValue))
      if someInLeftHasNoMatch then false
      else !(someKeyInMapFB r.data (fun rightKey => !(l.has rightKey)))
    | _, _ => false

/-- The entry-by-entry content of `_equalMaps` on two present maps with the
default comparer. -/
def EqualMapsContract {V : Type} (l r : ShimStringMap V) : Prop :=
  (∀ k, l.has k = true → (r.has k = true ∧ l.get k = r.get k)) ∧
  (∀ k, r.has k = true → l.has k = true)

theorem equalMapsContract_symm {V : Type} (l r : ShimStringMap V)
    (h : EqualMapsContract l r) : EqualMapsContract r l := by
  obtain ⟨hlr, hrl⟩ := h
  constructor
  · intro k hrk
    have hlk : l.has k = true := hrl k hrk
    exact ⟨hlk, ((hlr k hlk).2).symm⟩
  · intro k hlk
    exact (hlr k hlk).1

theorem equalMaps_noMatch_iff {V : Type} [DecidableEq V]
    (l r : ShimStringMap V) (hl : l.WF) :
    (someInMapFB l.data (fun leftKey leftValue =>
        if !(r.has leftKey) then true
        else !(leftValue == r.get leftKey)) = false) ↔
      ∀ k, l.has k = true → (r.has k = true ∧ l.get k = r.get k) := by
  rw [someInMapFB_eq_any, List.any_eq_false]
  constructor
  · intro hall k hlk
    rw [l.has_iff_exists] at hlk
    obtain ⟨v, hv⟩ := hlk
    have := hall (k, v) hv
    by_cases hrk : r.has k = true
    · simp only [hrk, Bool.not_true, Bool.false_eq_true, if_false,
        Bool.not_eq_true, Bool.not_eq_false, beq_iff_eq] at this
      refine ⟨hrk, ?_⟩
      rw [l.get_of_mem hl k v hv]
      simpa using this
    · simp only [Bool.not_eq_true] at hrk
      simp [hrk] at this
  · intro h e he
    obtain ⟨k, v⟩ := e
    have hlk : l.has k = true := (l.has_iff_exists k).mpr ⟨v, he⟩
    obtain ⟨hrk, hget⟩ := h k hlk
    have hv : l.get k = v := l.get_of_mem hl k v he
    have hbeq : (v == r.get k) = true := by
      rw [beq_iff_eq, ← hv]
      exact hget
    rw [hrk]
    simp [hbeq]

theorem equalMaps_coverage_iff {V : Type}
    (l r : ShimStringMap V) :
    (someKeyInMapFB r.data (fun rightKey => !(l.has rightKey)) = false) ↔
      ∀ k, r.has k = true → l.has k = true := by
  unfold someKeyInMapFB
  rw [someInMapFB_eq_any, List.any_eq_false]
  constructor
  · intro hall k hrk
    rw [r.has_iff_exists] at hrk
    obtain ⟨v, hv⟩ := hrk
    have := hall (k, v) hv
    simpa using this
  · intro h e he
    obtain ⟨k, v⟩ := e
    have hrk : r.has k = true := (r.has_iff_exists k).mpr ⟨v, he⟩
    simp [h k hrk]

theorem equalMaps_some_some_iff {V : Type} [DecidableEq V]
    (l r : ShimStringMap V) (hl : l.WF) :
    _equalMaps (some l) (some r) none = true ↔
      (l = r ∨ EqualMapsContract l r) := by
  by_cases heq : l = r
  · subst heq
    simp [_equalMaps]
  · unfold _equalMaps
    rw [if_neg (by simpa using heq)]
    show (if someInMapFB l.data (fun leftKey leftValue =>
        if !(r.has leftKey) then true
        else !(leftValue == r.get leftKey)) then false
      else !(someKeyInMapFB r.data (fun rightKey => !(l.has rightKey))))
        = true ↔ (l = r ∨ EqualMapsContract l r)
    by_cases hmatch : someInMapFB l.data (fun leftKey leftValue =>
        if !(r.has leftKey) then true
        else !(leftValue == r.get leftKey)) = true
    · rw [hmatch]
      rw [if_pos (Eq.refl true)]
      simp only [Bool.false_eq_true, false_iff]
      rintro (h | h)
      · exact heq h
      · have := (equalMaps_noMatch_iff l r hl).mpr h.1
        rw [this] at hmatch
        exact Bool.false_ne_true hmatch
    · simp only [Bool.not_eq_true] at hmatch
      rw [hmatch]
      rw [if_neg Bool.false_ne_true]
      rw [Bool.not_eq_true']
      rw [equalMaps_coverage_iff l r]
      constructor
      · intro hcov
        exact Or.inr ⟨(equalMaps_noMatch_iff l r hl).mp hmatch, hcov⟩
      · rintro (h | h)
        · exact absurd h heq
        · exact h.2

/-- C3: `_equalMaps(left, right)` with the default comparer returns true iff
the two arguments are identical, or both are present, every key of the left
map exists in the right map with an equal value, and every key of the right
map exists in the left map; an absent argument not identical to the other
yields false.  Moreover `_equalMaps` is symmetric. -/
theorem equalMaps_characterization_and_symm {V : Type} [DecidableEq V]
    (left right : Option (ShimStringMap V))
    (hleft : ∀ l, left = some l → l.WF)
    (hright : ∀ r, right = some r → r.WF) :
    (_equalMaps left right none = true ↔
      (left = right ∨
        ∃ l r, left = some l ∧ right = some r ∧ EqualMapsContract l r)) ∧
    _equalMaps left right none = _equalMaps right left none := by
  have main : ∀ (a b : Option (ShimStringMap V)), (∀ l, a = some l → l.WF) →
      (_equalMaps a b none = true ↔
        (a = b ∨ ∃ l r, a = some l ∧ b = some r ∧ EqualMapsContract l r)) := by
    intro a b ha
    match a, b with
    | none, none => simp [_equalMaps]
    | none, some r =>
      unfold _equalMaps
      rw [if_neg (by simp)]
      simp
    | some l, none =>
      unfold _equalMaps
      rw [if_neg (by simp)]
      simp
    | some l, some r =>
      rw [equalMaps_some_some_iff l r (ha l rfl)]
      constructor
      · rintro (h | h)
        · exact Or.inl (by rw [h])
        · exact Or.inr ⟨l, r, rfl, rfl, h⟩
      · rintro (h | ⟨l', r', hl', hr', h⟩)
        · exact Or.inl (by injection h)
        · injection hl' with hl''
          injection hr' with hr''
          subst hl''; subst hr''
          exact Or.inr h
  refine ⟨main left right hleft, ?_⟩
  rw [Bool.eq_iff_iff, main left right hleft, main right left hright]
  constructor
  · rintro (h | ⟨l, r, hl, hr, h⟩)
    · exact Or.inl h.symm
    · exact Or.inr ⟨r, l, hr, hl, equalMapsContract_symm l r h⟩
  · rintro (h | ⟨r, l, hr, hl, h⟩)
    · exact Or.inl h.symm
    · exact Or.inr ⟨l, r, hl, hr, equalMapsContract_symm r l h⟩

/-- A concrete example map `{a ↦ 1, b ↦ 2}` in one insertion order. -/
def exMapA : ShimStringMap Nat := ⟨[("a", some 1), ("b", some 2)]⟩

/-- The same entries as `exMapA` in the opposite insertion order. -/
def exMapB : ShimStringMap Nat := ⟨[("b", some 2), ("a", some 1)]⟩

/-- Witness for C3 at the concrete maps `exMapA` and `exMapB`. -/
theorem equalMaps_characterization_and_symm_witness :
    ((_equalMaps (some exMapA) (some exMapB) none = true ↔
      (some exMapA = some exMapB ∨
        ∃ l r, some exMapA = some l ∧ some exMapB = some r ∧
          EqualMapsContract l r)) ∧
    _equalMaps (some exMapA) (some exMapB) none =
      _equalMaps (some exMapB) (some exMapA) none) :=
  equalMaps_characterization_and_symm (some exMapA) (some exMapB)
    (by
      intro l hl
      injection hl with h
      rw [← h]
      show (List.map Prod.fst exMapA.data).Nodup
      decide)
    (by
      intro r hr
      injection hr with h
      rw [← h]
      show (List.map Prod.fst exMapB.data).Nodup
      decide)

/-! ### A small universe of JS primitive values

Needed wherever the source compares values of different JS types
(`typeof key === "number"` in `ShimNumberMap.forEach`, and the expression
`!hasOwnProperty.call(right, key) === undefined` in `equalOwnProperties`). -/

/-- JS primitive values relevant to the code under verification. -/
inductive JSVal : Type where
  | undef : JSVal
  | boolean (b : Bool) : JSVal
  | number (n : Int) : JSVal
  | string (s : String) : JSVal
deriving DecidableEq

/-- The JS `typeof` operator on the modelled values. -/
def jsTypeof : JSVal → String
  | JSVal.undef => "undefined"
  | JSVal.boolean _ => "boolean"
  | JSVal.number _ => "number"
  | JSVal.string _ => "string"

/-- JS strict equality `===` on the modelled primitive values: values of
different types are never strictly equal. -/
def strictEq : JSVal → JSVal → Bool
  | JSVal.undef, JSVal.undef => true
  | JSVal.boolean a, JSVal.boolean b => a == b
  | JSVal.number a, JSVal.number b => a == b
  | JSVal.string a, JSVal.string b => a == b
  | _, _ => false

/-- Modelled from the spec: `Debug.assert` is defined outside the files under
verification; the spec treats a failed assertion as a fatal
programming-contract violation, so a false condition produces an error. -/
def debugAssert (condition : Bool) : Except String Unit :=
  if condition then Except.ok () else Except.error "Debug failure: assertion"

/-! ### Fallback number-keyed map (`ShimNumberMap`) -/

/-- Fallback `NumberMap` (`ShimNumberMap`): a plain object used as a sparse
store whose property names are the decimal strings of the numeric keys.  As
with the string map, stored values live in `Option V`. -/
structure ShimNumberMap (V : Type) where
  data : List (Int × Option V)
deriving DecidableEq

namespace ShimNumberMap

/-- Source: `delete(key) { delete this.data[key]; }`. -/
def delete {V : Type} (m : ShimNumberMap V) (key : Int) : ShimNumberMap V :=
  ⟨m.data.filter (fun e => !(e.1 == key))⟩

/-- Source: `get(key) { return this.data[key]; }`. -/
def get {V : Type} (m : ShimNumberMap V) (key : Int) : Option V :=
  match m.data.find? (fun e => e.1 == key) with
  | some e => e.2
  | none => none

/-- Source: `has(key) { return key in this.data; }`. -/
def has {V : Type} (m : ShimNumberMap V) (key : Int) : Bool :=
  m.data.any (fun e => e.1 == key)

/-- Source: `set(key, value) { this.data[key] = value; }`. -/
def set {V : Type} (m : ShimNumberMap V) (key : Int) (value : Option V) :
    ShimNumberMap V :=
  ⟨assocSet m.data key value⟩

end ShimNumberMap

/-- The body of `ShimNumberMap.forEach`: `for (const key in this.data)` binds
`key` to the *string* form of each property name (JS `for..in` always
produces strings), then runs `Debug.assert(typeof key === "number")` and, if
the assertion passes, calls the action with the stored value and that key. -/
def shimNumberMapForEachGo {V A : Type} (action : Option V → JSVal → A) :
    List (Int × Option V) → Except String (List A)
  | [] => Except.ok []
  | (key, value) :: rest =>
    match debugAssert (jsTypeof (JSVal.string (toString key)) == "number") with
    | Except.error e => Except.error e
    | Except.ok _ =>
      match shimNumberMapForEachGo action rest with
      | Except.error e => Except.error e
      | Except.ok results =>
        Except.ok (action value (JSVal.string (toString key)) :: results)

/-- Source: `forEach(action)` of `ShimNumberMap`, including its
`Debug.assert(typeof key === "number")`. -/
def ShimNumberMap.forEach {V A : Type} (m : ShimNumberMap V)
    (action : Option V → JSVal → A) : Except String (List A) :=
  shimNumberMapForEachGo action m.data

/-- C5 (failing part): `forEach` of the fallback `NumberMap` fails its
`Debug.assert` on every non-empty map: `for..in` produces string keys, so
`typeof key === "number"` is false, contradicting the spec's "none of these
operations raise errors".  Evaluated at the concrete failing input
`{1 ↦ 0}`, and in general for any map holding at least one entry. -/
theorem shimNumberMap_forEach_assertion_fails :
    ShimNumberMap.forEach (ShimNumberMap.mk [((1 : Int), some (0 : Nat))])
        (fun _ _ => (0 : Nat)) = Except.error "Debug failure: assertion" ∧
    ∀ (V A : Type) (m : ShimNumberMap V) (action : Option V → JSVal → A)
      (e : Int × Option V) (rest : List (Int × Option V)),
      m.data = e :: rest →
      m.forEach action = Except.error "Debug failure: assertion" := by
  constructor
  · rfl
  · intro V A m action e rest hdata
    obtain ⟨key, value⟩ := e
    unfold ShimNumberMap.forEach
    rw [hdata]
    rfl

/-- Witness for C5's general part at the concrete one-entry map `{2 ↦ 5}`. -/
theorem shimNumberMap_forEach_assertion_fails_witness :
    ShimNumberMap.forEach (ShimNumberMap.mk [((2 : Int), some (5 : Nat))])
        (fun _ _ => (0 : Nat)) = Except.error "Debug failure: assertion" :=
  shimNumberMap_forEach_assertion_fails.2 Nat Nat
    (ShimNumberMap.mk [((2 : Int), some (5 : Nat))]) (fun _ _ => (0 : Nat))
    ((2 : Int), some (5 : Nat)) [] rfl

/-! ### Fallback string set (`ShimSet`) -/

/-- Fallback `StringSet` (`ShimSet` in the copy that maintains a `size`
field): a dictionary-mode object whose keys are the members, plus an
incrementally maintained member count. -/
structure ShimSet where
  data : List String
  size : Int
deriving DecidableEq

namespace ShimSet

/-- The constructor: empty dictionary object, `size = 0`. -/
def empty : ShimSet := ⟨[], 0⟩

/-- Source: `has(value) { return value in this.data; }`. -/
def has (s : ShimSet) (value : String) : Bool :=
  s.data.any (fun x => x == value)

/-- Source: `add(value)` assigns `data[value] = true` and increments `size`,
but only when the member is not already present. -/
def add (s : ShimSet) (value : String) : ShimSet :=
  if !(s.has value) then ⟨s.data ++ [value], s.size + 1⟩ else s

/-- Source: `delete(value)` removes the property and decrements `size`, but
only when the member is present. -/
def delete (s : ShimSet) (value : String) : ShimSet :=
  if s.has value then ⟨s.data.erase value, s.size - 1⟩ else s

/-- The invariant of §4.3: `size` equals the number of distinct members
currently present. -/
def WF (s : ShimSet) : Prop :=
  s.data.Nodup ∧ s.size = (s.data.length : Int)

theorem has_iff_mem (s : ShimSet) (value : String) :
    s.has value = true ↔ value ∈ s.data := by
  unfold has
  rw [List.any_eq_true]
  constructor
  · rintro ⟨x, hx, hpx⟩
    rwa [← eq_of_beq hpx]
  · intro h
    exact ⟨value, h, by simp⟩

end ShimSet

/-- C6: the fallback string set maintains the invariant that `size` equals
the number of distinct members present (holds for a fresh set and is
preserved by `add` and `delete`); `add` of an already-present member leaves
`size` unchanged, `add` of a new member increments it by one, `delete`
decrements it exactly when the member was present. -/
theorem shimSet_size_invariant (s : ShimSet) (value : String)
    (hWF : s.WF) :
    ShimSet.empty.WF ∧
    (s.add value).WF ∧ (s.delete value).WF ∧
    (s.has value = true → (s.add value).size = s.size) ∧
    (s.has value = false → (s.add value).size = s.size + 1) ∧
    (s.has value = true → (s.delete value).size = s.size - 1) ∧
    (s.has value = false → (s.delete value).size = s.size) := by
  obtain ⟨hnd, hsize⟩ := hWF
  refine ⟨⟨List.nodup_nil, rfl⟩, ?_, ?_, ?_, ?_, ?_, ?_⟩
  · unfold ShimSet.add
    by_cases h : s.has value = true
    · simp [h]
      exact ⟨hnd, hsize⟩
    · simp only [Bool.not_eq_true] at h
      have hmem : value ∉ s.data := by
        intro hm
        rw [← ShimSet.has_iff_mem] at hm
        rw [h] at hm
        exact Bool.false_ne_true hm
      simp only [h, Bool.not_false, if_true]
      constructor
      · rw [List.nodup_append]
        exact ⟨hnd, List.nodup_singleton value, by simpa using hmem⟩
      · simp [hsize]
  · unfold ShimSet.delete
    by_cases h : s.has value = true
    · have hmem : value ∈ s.data := (ShimSet.has_iff_mem s value).mp h
      have hlen : 1 ≤ s.data.length := List.length_pos.mpr
        (List.ne_nil_of_mem hmem)
      simp only [h, if_true]
      refine ⟨hnd.erase value, ?_⟩
      show s.size - 1 = ((s.data.erase value).length : Int)
      rw [List.length_erase_of_mem hmem, hsize]
      omega
    · simp only [Bool.not_eq_true] at h
      simp [h]
      exact ⟨hnd, hsize⟩
  · intro h
    simp [ShimSet.add, h]
  · intro h
    simp [ShimSet.add, h]
  · intro h
    simp [ShimSet.delete, h]
  · intro h
    simp [ShimSet.delete, h]

/-- Witness for C6 at the concrete set `{x}` with `size = 1`. -/
theorem shimSet_size_invariant_witness :
    ShimSet.empty.WF ∧
    ((ShimSet.mk ["x"] 1).add "x").WF ∧
    ((ShimSet.mk ["x"] 1).delete "x").WF ∧
    ((ShimSet.mk ["x"] 1).has "x" = true →
      ((ShimSet.mk ["x"] 1).add "x").size = (ShimSet.mk ["x"] 1).size) ∧
    ((ShimSet.mk ["x"] 1).has "x" = false →
      ((ShimSet.mk ["x"] 1).add "x").size = (ShimSet.mk ["x"] 1).size + 1) ∧
    ((ShimSet.mk ["x"] 1).has "x" = true →
      ((ShimSet.mk ["x"] 1).delete "x").size = (ShimSet.mk ["x"] 1).size - 1) ∧
    ((ShimSet.mk ["x"] 1).has "x" = false →
      ((ShimSet.mk ["x"] 1).delete "x").size = (ShimSet.mk ["x"] 1).size) :=
  shimSet_size_invariant (ShimSet.mk ["x"] 1) "x"
    ⟨by decide, by decide⟩

/-! ### MapLike records and `equalOwnProperties` -/

/-- A `MapLike` record: a plain ordered field → value structure holding only
own enumerable fields, in insertion order. -/
abbrev MapLike (V : Type) : Type := List (String × Option V)

/-- Source: `hasProperty(map, key)` = `hasOwnProperty.call(map, key)`. -/
def hasProperty {V : Type} (map : MapLike V) (key : String) : Bool :=
  map.any (fun e => e.1 == key)

/-- JS indexing `map[key]` on a record whose keys do not shadow prototype
members: the stored value when `key` is an own field, `undefined` otherwise. -/
def mapLikeIndex {V : Type} (map : MapLike V) (key : String) : Option V :=
  match map.find? (fun e => e.1 == key) with
  | some e => e.2
  | none => none

/-- Source: `getProperty(map, key)` =
`hasOwnProperty.call(map, key) ? map[key] : undefined`. -/
def getProperty {V : Type} (map : MapLike V) (key : String) : Option V :=
  if hasProperty map key then mapLikeIndex map key else none

/-- Source: `equalOwnProperties(left, right, equalityComparer?)`, including
the first loop's literal test
`if (!hasOwnProperty.call(right, key) === undefined) return false;`
(a boolean compared with `===` against `undefined`), embedded through
`strictEq` on `JSVal`. -/
def equalOwnProperties {V : Type} [DecidableEq V]
    (left right : Option (MapLike V))
    (equalityComparer : Option (Option V → Option V → Bool)) : Bool :=
  if left = right then true
  else
    match left, right with
    | some l, some r =>
      l.all (fun e =>
        !(strictEq (JSVal.boolean (!(hasProperty r e.1))) JSVal.undef) &&
        !(match equalityComparer with
          | some c => !(c (mapLikeIndex l e.1) (mapLikeIndex r e.1))
          | none => !(mapLikeIndex l e.1 == mapLikeIndex r e.1))) &&
      r.all (fun e => hasProperty l e.1)
    | _, _ => false

/-- C4 fails on the code: because the test
`!hasOwnProperty.call(right, key) === undefined` compares a boolean against
`undefined` (always false), a left-side key missing from the right side is
only caught when the values differ.  At `left = {a: undefined}`,
`right = {}` the function returns true although left's key `a` is not an own
key of right, and swapping the arguments returns false, so the claimed
characterization and symmetry both fail. -/
theorem equalOwnProperties_missing_key_divergence :
    equalOwnProperties (some [("a", (none : Option Nat))]) (some [])
        none = true ∧
    equalOwnProperties (some ([] : MapLike Nat))
        (some [("a", (none : Option Nat))]) none = false ∧
    hasProperty (V := Nat) [] "a" = false := by
  refine ⟨?_, ?_, ?_⟩ <;> rfl

/-! ### Natural-order sort (`sortInV8ObjectInsertionOrder`) -/

/-- The regular expression test `/^(0|([1-9]\d*))$/.test(s)`: exactly `"0"`,
or a nonzero digit followed by any digits. -/
def looksLikeNatural (s : String) : Bool :=
  match s.data with
  | [] => false
  | c :: cs =>
    (c == '0' && cs.isEmpty) ||
    (('1' ≤ c && c ≤ '9') && cs.all (fun d => '0' ≤ d && d ≤ '9'))

/-- The JS builtin `parseInt(s, 10)` restricted to its use here: the decimal
value of the leading digit prefix of the string.  Every key this is applied
to has passed `looksLikeNatural`, so the whole string is that prefix. -/
def parseIntDigits : List Char → Nat → Nat
  | [], acc => acc
  | c :: cs, acc =>
    if '0' ≤ c && c ≤ '9' then
      parseIntDigits cs (acc * 10 + (c.toNat - '0'.toNat))
    else acc

/-- The comparator `(a, b) => toInt(a) - toInt(b)` passed to `Array.sort`:
ascending order of the parsed numeric key. -/
def naturalKeyLe {T : Type} (toKey : T → String) (a b : T) : Prop :=
  parseIntDigits (toKey a).data 0 ≤ parseIntDigits (toKey b).data 0

instance {T : Type} (toKey : T → String) : DecidableRel (naturalKeyLe toKey) :=
  fun a b =>
    Nat.decLe (parseIntDigits (toKey a).data 0) (parseIntDigits (toKey b).data 0)

/-- Source: `sortInV8ObjectInsertionOrder(values, toKey)` — one pass pushes
each element into `naturals` or `everythingElse`, the naturals are sorted
ascending by numeric key (`Array.sort` with a stable sort), and the two
sequences are concatenated. -/
def sortInV8ObjectInsertionOrder {T : Type} (values : List T)
    (toKey : T → String) : List T :=
  let pair := values.foldl
    (fun (acc : List T × List T) value =>
      if looksLikeNatural (toKey value) then (acc.1 ++ [value], acc.2)
      else (acc.1, acc.2 ++ [value]))
    ([], [])
  List.insertionSort (naturalKeyLe toKey) pair.1 ++ pair.2

theorem foldl_partition {T : Type} (p : T → Bool) (values : List T)
    (acc1 acc2 : List T) :
    values.foldl
      (fun (acc : List T × List T) v =>
        if p v then (acc.1 ++ [v], acc.2) else (acc.1, acc.2 ++ [v]))
      (acc1, acc2)
      = (acc1 ++ values.filter p, acc2 ++ values.filter (fun v => !(p v))) := by
  induction values generalizing acc1 acc2 with
  | nil => simp
  | cons x xs ih =>
    by_cases h : p x = true
    · simp only [List.foldl_cons, h, if_true, ih, List.filter_cons]
      simp [h]
    · simp only [Bool.not_eq_true] at h
      simp only [List.foldl_cons, h, Bool.false_eq_true, if_false, ih,
        List.filter_cons]
      simp [h]

/-- C7: the natural-order sort returns the elements whose key matches the
natural pattern sorted ascending by the numeric value of the key, followed
by the remaining elements in their original relative order; in particular
`sortInV8ObjectInsertionOrder(["08","2","0","x","1"], identity)`
= `["0","1","2","08","x"]`. -/
theorem sortInV8ObjectInsertionOrder_natural_partition {T : Type}
    (values : List T) (toKey : T → String) :
    (sortInV8ObjectInsertionOrder values toKey =
      List.insertionSort (naturalKeyLe toKey)
          (values.filter (fun v => looksLikeNatural (toKey v)))
        ++ values.filter (fun v => !(looksLikeNatural (toKey v)))) ∧
    List.Perm
      (List.insertionSort (naturalKeyLe toKey)
        (values.filter (fun v => looksLikeNatural (toKey v))))
      (values.filter (fun v => looksLikeNatural (toKey v))) ∧
    (List.insertionSort (naturalKeyLe toKey)
        (values.filter (fun v => looksLikeNatural (toKey v)))).Pairwise
      (naturalKeyLe toKey) ∧
    sortInV8ObjectInsertionOrder ["08", "2", "0", "x", "1"] (fun s => s) =
      ["0", "1", "2", "08", "x"] := by
  refine ⟨?_, ?_, ?_, ?_⟩
  · unfold sortInV8ObjectInsertionOrder
    rw [foldl_partition]
    simp
  · exact List.perm_insertionSort (naturalKeyLe toKey) _
  · haveI : IsTotal T (naturalKeyLe toKey) :=
      ⟨fun a b => Nat.le_total _ _⟩
    haveI : IsTrans T (naturalKeyLe toKey) :=
      ⟨fun _ _ _ hab hbc => Nat.le_trans hab hbc⟩
    exact List.sorted_insertionSort (naturalKeyLe toKey) _
  · decide

/-! ### Multimap operations -/

/-- Modelled from the spec: `unorderedRemoveItem` is defined in `core.ts`,
outside the files under verification.  Per the spec it "removes one
occurrence of `value` from the key's list without preserving remaining
order"; we model it as the swap-with-last removal idiom: locate the first
occurrence, overwrite it with the final element, then drop the final
element.  A list without the value is returned unchanged. -/
def unorderedRemoveItem {V : Type} [DecidableEq V] (values : List V)
    (value : V) : List V :=
  match values.findIdx? (fun x => x == value) with
  | none => values
  | some i => (values.set i (values.getLastD value)).dropLast

/-- Source: `multiMapAdd(map, key, value)` — push onto the existing array
(possible exactly when `map.get(key)` is truthy, i.e. an array, even an
empty one) or store a fresh single-element array; returns the array
alongside the updated map. -/
def multiMapAdd {V : Type} (map : ShimStringMap (List V)) (key : String)
    (value : V) : ShimStringMap (List V) × List V :=
  match map.get key with
  | some values => (map.set key (some (values ++ [value])), values ++ [value])
  | none => ((setAndReturn map key (some [value])).1, [value])

/-- Source: `multiMapRemove(map, key, value)` — when `map.get(key)` is
truthy, remove one occurrence in place and delete the key if the array is
now empty. -/
def multiMapRemove {V : Type} [DecidableEq V] (map : ShimStringMap (List V))
    (key : String) (value : V) : ShimStringMap (List V) :=
  match map.get key with
  | none => map
  | some values =>
    let shrunk := unorderedRemoveItem values value
    let mapWritten := map.set key (some shrunk)
    if shrunk.length == 0 then mapWritten.delete key else mapWritten

/-- C8 as frozen fails on the code: on a map whose stored list for `a` is
empty, removing any value — necessarily absent from the empty list — does
not leave the map unchanged; the `!values.length` cleanup deletes the key. -/
theorem multiMapRemove_empty_list_counterexample :
    ((ShimStringMap.mk [("a", some ([] : List Nat))]).has "a" = true) ∧
    ((multiMapRemove (ShimStringMap.mk [("a", some ([] : List Nat))]) "a"
        (0 : Nat)).has "a" = false) ∧
    multiMapRemove (ShimStringMap.mk [("a", some ([] : List Nat))]) "a"
        (0 : Nat) ≠ ShimStringMap.mk [("a", some ([] : List Nat))] := by
  refine ⟨rfl, rfl, ?_⟩
  decide

theorem findIdx?_shift {α : Type} (p : α → Bool) (xs : List α) (i : Nat) :
    xs.findIdx? p (i + 1) = (xs.findIdx? p i).map (· + 1) := by
  induction xs generalizing i with
  | nil => rfl
  | cons x rest ih =>
    rw [List.findIdx?_cons, List.findIdx?_cons]
    by_cases hx : p x = true
    · simp [hx]
    · simp only [Bool.not_eq_true] at hx
      simp only [hx, Bool.false_eq_true, if_false]
      exact ih (i + 1)

theorem mem_decomp_first {V : Type} [DecidableEq V] (values : List V) (v : V)
    (h : v ∈ values) :
    ∃ l₁ l₂, values = l₁ ++ v :: l₂ ∧ (∀ x ∈ l₁, (x == v) = false) ∧
      values.findIdx? (fun x => x == v) = some l₁.length := by
  induction values with
  | nil => simp at h
  | cons x xs ih =>
    by_cases hx : (x == v) = true
    · refine ⟨[], xs, ?_, ?_, ?_⟩
      · rw [eq_of_beq hx]
        rfl
      · intro y hy
        exact absurd hy (List.not_mem_nil y)
      · rw [List.findIdx?_cons]
        simp [hx]
    · have hxv : x ≠ v := fun he => hx (by simp [he])
      have hmem : v ∈ xs := by
        rcases List.mem_cons.mp h with he | hm
        · exact absurd he.symm hxv
        · exact hm
      obtain ⟨l₁, l₂, hdec, hall, hidx⟩ := ih hmem
      refine ⟨x :: l₁, l₂, ?_, ?_, ?_⟩
      · rw [List.cons_append, hdec]
      · intro y hy
        rcases List.mem_cons.mp hy with he | hm
        · rw [he]
          simpa using hx
        · exact hall y hm
      · rw [List.findIdx?_cons]
        simp only [Bool.not_eq_true] at hx
        simp only [hx, Bool.false_eq_true, if_false]
        rw [findIdx?_shift, hidx]
        rfl

theorem unorderedRemoveItem_perm {V : Type} [DecidableEq V] (values : List V)
    (v : V) (h : v ∈ values) :
    List.Perm (unorderedRemoveItem values v) (values.erase v) := by
  obtain ⟨l₁, l₂, hdec, hall, hidx⟩ := mem_decomp_first values v h
  have hvnotin : v ∉ l₁ := by
    intro hm
    have := hall v hm
    simp at this
  have herase : values.erase v = l₁ ++ l₂ := by
    rw [hdec, List.erase_append_right _ hvnotin, List.erase_cons_head]
  unfold unorderedRemoveItem
  rw [hidx]
  show List.Perm ((values.set l₁.length (values.getLastD v)).dropLast)
    (values.erase v)
  have hlt : l₁.length < values.length := by
    rw [hdec]
    simp only [List.length_append, List.length_cons]
    omega
  rw [List.set_eq_take_append_cons_drop, if_pos hlt]
  have htake : values.take l₁.length = l₁ := by
    rw [hdec]
    exact List.take_left l₁ _
  have hdrop : values.drop (l₁.length + 1) = l₂ := by
    rw [hdec, ← List.drop_drop 1 l₁.length, List.drop_left]
    rfl
  rw [htake, hdrop, herase]
  cases l₂ with
  | nil =>
    rw [List.dropLast_concat]
    simp
  | cons d ds =>
    have hd : (d :: ds) ≠ [] := by simp
    have hlast : values.getLastD v = (d :: ds).getLast hd := by
      rw [hdec, List.getLastD_eq_getLast?,
        List.getLast?_append_of_ne_nil l₁ (by simp : (v :: d :: ds) ≠ []),
        List.getLast?_eq_getLast (v :: d :: ds) (by simp),
        List.getLast_cons hd]
      rfl
    rw [hlast]
    have hassoc : l₁ ++ (d :: ds).getLast hd :: d :: ds
        = (l₁ ++ [(d :: ds).getLast hd]) ++ (d :: ds) := by simp
    rw [hassoc, List.dropLast_append_of_ne_nil _ hd]
    have h4 : List.Perm
        ((l₁ ++ [(d :: ds).getLast hd]) ++ (d :: ds).dropLast)
        (l₁ ++ ((d :: ds).dropLast ++ [(d :: ds).getLast hd])) := by
      rw [List.append_assoc]
      exact List.Perm.append_left l₁ List.perm_append_comm
    have h5 : l₁ ++ ((d :: ds).dropLast ++ [(d :: ds).getLast hd])
        = l₁ ++ (d :: ds) := by rw [List.dropLast_append_getLast hd]
    rw [← h5]
    exact h4

theorem ShimStringMap.has_of_get_eq_some {V : Type} (m : ShimStringMap V)
    (k : String) (w : V) (h : m.get k = some w) : m.has k = true := by
  rw [has_eq_isSome]
  cases hf : m.data.find? (fun e => e.1 == k) with
  | none =>
    rw [get_eq_find?, hf] at h
    exact absurd h (by simp)
  | some e => rfl

theorem ShimStringMap.find?_eq_entry {V : Type} (m : ShimStringMap V)
    (k : String) (hhas : m.has k = true) :
    m.data.find? (fun e => e.1 == k) = some (k, m.get k) := by
  rw [has_eq_isSome] at hhas
  cases hf : m.data.find? (fun e => e.1 == k) with
  | none =>
    rw [hf] at hhas
    simp at hhas
  | some e =>
    have hk : e.1 = k := by
      have h1 := List.find?_some hf
      simp only [beq_iff_eq] at h1
      exact h1
    have hv : m.get k = e.2 := by rw [get_eq_find?, hf]
    have hpe : ((k, e.2) : String × Option V) = e := Prod.ext hk.symm rfl
    rw [hv, hpe]

theorem ShimStringMap.set_get_self_eq {V : Type} (m : ShimStringMap V)
    (hWF : m.WF) (k : String) (w : Option V) (hhas : m.has k = true)
    (hget : m.get k = w) : m.set k w = m := by
  have hfind : m.data.find? (fun e => e.1 == k) = some (k, w) := by
    rw [m.find?_eq_entry k hhas, hget]
  have hmem : (k, w) ∈ m.data := List.mem_of_find?_eq_some hfind
  show (⟨assocSet m.data k w⟩ : ShimStringMap V) = m
  unfold assocSet
  have hany : (m.data.any fun e => e.1 == k) = true := hhas
  rw [if_pos hany]
  have : m.data.map (fun e => if e.1 == k then (k, w) else e) = m.data := by
    conv_rhs => rw [← List.map_id m.data]
    apply List.map_congr_left
    intro e he
    by_cases hek : (e.1 == k) = true
    · have : e = (k, w) := List.inj_on_of_nodup_map hWF he hmem
        (by rw [eq_of_beq hek])
      rw [if_pos hek, this]
      rfl
    · simp only [Bool.not_eq_true] at hek
      simp [hek]
  rw [this]

/-- C8, amended: `multiMapAdd` appends to an existing value-list or creates
the single-element list `[v]`, leaving other keys untouched; `multiMapRemove`
on an absent key is a no-op, on a present value removes exactly one
occurrence (up to order) and deletes the key once the list becomes empty,
and with a value absent from the key's *nonempty* list is a no-op.  (As
stated the frozen claim also fails on a stored empty list, which the code
deletes — see the counterexample.) -/
theorem multiMap_add_remove_amended {V : Type} [DecidableEq V]
    (m : ShimStringMap (List V)) (hWF : m.WF) (k k' : String)
    (hkk' : (k == k') = false) (v : V) :
    ((multiMapAdd m k v).1.get k = some (((m.get k).getD []) ++ [v])) ∧
    ((multiMapAdd m k v).1.get k' = m.get k') ∧
    (m.get k = none → multiMapRemove m k v = m) ∧
    (∀ vs, m.get k = some vs → v ∉ vs → vs ≠ [] →
      multiMapRemove m k v = m) ∧
    (∀ vs, m.get k = some vs → v ∈ vs →
      (List.Perm (unorderedRemoveItem vs v) (vs.erase v) ∧
       (unorderedRemoveItem vs v = [] →
         (multiMapRemove m k v).has k = false) ∧
       (unorderedRemoveItem vs v ≠ [] →
         (multiMapRemove m k v).get k = some (unorderedRemoveItem vs v)) ∧
       (multiMapRemove m k v).get k' = m.get k')) := by
  refine ⟨?_, ?_, ?_, ?_, ?_⟩
  · unfold multiMapAdd
    cases hg : m.get k with
    | some values =>
      simp only [hg]
      rw [m.get_set_self k (some (values ++ [v]))]
      rfl
    | none =>
      simp only [hg]
      show (m.set k (some [v])).get k = some (Option.getD none [] ++ [v])
      rw [m.get_set_self k (some [v])]
      rfl
  · unfold multiMapAdd
    cases hg : m.get k with
    | some values =>
      simp only [hg]
      exact m.get_set_ne k k' (some (values ++ [v])) hkk'
    | none =>
      simp only [hg]
      exact m.get_set_ne k k' (some [v]) hkk'
  · intro hg
    unfold multiMapRemove
    rw [hg]
  · intro vs hg hnotmem hne
    unfold multiMapRemove
    rw [hg]
    have hur : unorderedRemoveItem vs v = vs := by
      unfold unorderedRemoveItem
      have : vs.findIdx? (fun x => x == v) = none := by
        rw [List.findIdx?_eq_none_iff]
        intro x hx
        by_cases hxv : (x == v) = true
        · exact absurd (eq_of_beq hxv ▸ hx) hnotmem
        · simpa using hxv
      rw [this]
    show (if (unorderedRemoveItem vs v).length == 0
      then (m.set k (some (unorderedRemoveItem vs v))).delete k
      else m.set k (some (unorderedRemoveItem vs v))) = m
    rw [hur]
    rw [if_neg (by simp [beq_iff_eq, List.length_eq_zero, hne])]
    exact m.set_get_self_eq hWF k (some vs) (m.has_of_get_eq_some k vs hg) hg
  · intro vs hg hmem
    have hperm := unorderedRemoveItem_perm vs v hmem
    refine ⟨hperm, ?_, ?_, ?_⟩
    · intro hempty
      unfold multiMapRemove
      rw [hg]
      show (if (unorderedRemoveItem vs v).length == 0
        then (m.set k (some (unorderedRemoveItem vs v))).delete k
        else m.set k (some (unorderedRemoveItem vs v))).has k = false
      rw [hempty]
      rw [if_pos (by simp)]
      exact (m.set k (some [])).has_delete_self k
    · intro hne
      unfold multiMapRemove
      rw [hg]
      show (if (unorderedRemoveItem vs v).length == 0
        then (m.set k (some (unorderedRemoveItem vs v))).delete k
        else m.set k (some (unorderedRemoveItem vs v))).get k =
          some (unorderedRemoveItem vs v)
      rw [if_neg (by simp [beq_iff_eq, List.length_eq_zero, hne])]
      exact m.get_set_self k (some (unorderedRemoveItem vs v))
    · unfold multiMapRemove
      rw [hg]
      show (if (unorderedRemoveItem vs v).length == 0
        then (m.set k (some (unorderedRemoveItem vs v))).delete k
        else m.set k (some (unorderedRemoveItem vs v))).get k' = m.get k'
      by_cases hlen : ((unorderedRemoveItem vs v).length == 0) = true
      · rw [if_pos hlen]
        rw [ShimStringMap.get_delete_ne _ k k' hkk']
        exact m.get_set_ne k k' (some (unorderedRemoveItem vs v)) hkk'
      · rw [if_neg hlen]
        exact m.get_set_ne k k' (some (unorderedRemoveItem vs v)) hkk'

/-- Witness for C8's amended theorem at the concrete multimap
`{a ↦ [1, 2]}`, keys `a`/`b` and value `1`. -/
theorem multiMap_add_remove_amended_witness :
    (((multiMapAdd (ShimStringMap.mk [("a", some [1, 2])]) "a" (1 : Nat)).1.get
        "a" =
      some ((((ShimStringMap.mk [("a", some [1, 2])]).get "a").getD []) ++
        [1])) ∧
    ((multiMapAdd (ShimStringMap.mk [("a", some [1, 2])]) "a" (1 : Nat)).1.get
        "b" = (ShimStringMap.mk [("a", some [1, 2])]).get "b") ∧
    ((ShimStringMap.mk [("a", some [1, 2])]).get "a" = none →
      multiMapRemove (ShimStringMap.mk [("a", some [1, 2])]) "a" (1 : Nat) =
        ShimStringMap.mk [("a", some [1, 2])]) ∧
    (∀ vs, (ShimStringMap.mk [("a", some [1, 2])]).get "a" = some vs →
      (1 : Nat) ∉ vs → vs ≠ [] →
      multiMapRemove (ShimStringMap.mk [("a", some [1, 2])]) "a" 1 =
        ShimStringMap.mk [("a", some [1, 2])]) ∧
    (∀ vs, (ShimStringMap.mk [("a", some [1, 2])]).get "a" = some vs →
      (1 : Nat) ∈ vs →
      (List.Perm (unorderedRemoveItem vs 1) (vs.erase 1) ∧
       (unorderedRemoveItem vs 1 = [] →
         (multiMapRemove (ShimStringMap.mk [("a", some [1, 2])]) "a" 1).has
           "a" = false) ∧
       (unorderedRemoveItem vs 1 ≠ [] →
         (multiMapRemove (ShimStringMap.mk [("a", some [1, 2])]) "a" 1).get
           "a" = some (unorderedRemoveItem vs 1)) ∧
       (multiMapRemove (ShimStringMap.mk [("a", some [1, 2])]) "a" 1).get
           "b" = (ShimStringMap.mk [("a", some [1, 2])]).get "b"))) :=
  multiMap_add_remove_amended (ShimStringMap.mk [("a", some [1, 2])])
    (by show (List.map Prod.fst _).Nodup; decide) "a" "b" (by decide) 1

/-! ### Record / map interchange (`mapOfMapLike`, `mapLikeOfMap`) -/

/-- Source: `mapOfMapLike(object)` — a fresh `StringMap` receives
`set(key, object[key])` for every own key of the record, in enumeration
order. -/
def mapOfMapLike {V : Type} (object : MapLike V) : ShimStringMap V :=
  object.foldl (fun m e => m.set e.1 (mapLikeIndex object e.1))
    ShimStringMap.empty

/-- Source: `mapLikeOfMap(map)` — a fresh dictionary-mode record receives
`obj[key] = value` for every entry of the map, in `forEach` order. -/
def mapLikeOfMap {V : Type} (m : ShimStringMap V) : MapLike V :=
  m.data.foldl (fun obj e => assocSet obj e.1 e.2) []

theorem foldl_assocSet_fresh {V : Type} (l : MapLike V) :
    ∀ (acc : MapLike V), ((acc ++ l).map Prod.fst).Nodup →
    l.foldl (fun obj e => assocSet obj e.1 e.2) acc = acc ++ l := by
  induction l with
  | nil => intro acc _; simp
  | cons e rest ih =>
    intro acc h
    have hfresh : (acc.any (fun x => x.1 == e.1)) = false := by
      rw [Bool.eq_false_iff]
      intro hany
      rw [List.any_eq_true] at hany
      obtain ⟨x, hx, hpx⟩ := hany
      have hx1 : e.1 ∈ acc.map Prod.fst :=
        List.mem_map.mpr ⟨x, hx, eq_of_beq hpx⟩
      rw [List.map_append, List.nodup_append] at h
      exact h.2.2 hx1 (by simp)
    have hstep : assocSet acc e.1 e.2 = acc ++ [e] := by
      unfold assocSet
      rw [if_neg (by simp [hfresh])]
    rw [List.foldl_cons, hstep, ih (acc ++ [e]) (by rwa [List.append_assoc,
      List.singleton_append])]
    rw [List.append_assoc, List.singleton_append]

theorem ShimStringMap.foldl_set_fresh {V : Type} (l : MapLike V)
    (g : String → Option V) :
    ∀ (acc : ShimStringMap V), ((acc.data ++ l).map Prod.fst).Nodup →
    (∀ e ∈ l, g e.1 = e.2) →
    l.foldl (fun m e => m.set e.1 (g e.1)) acc = ⟨acc.data ++ l⟩ := by
  induction l with
  | nil => intro acc _ _; simp
  | cons e rest ih =>
    intro acc h hg
    have hfresh : (acc.data.any (fun x => x.1 == e.1)) = false := by
      rw [Bool.eq_false_iff]
      intro hany
      rw [List.any_eq_true] at hany
      obtain ⟨x, hx, hpx⟩ := hany
      have hx1 : e.1 ∈ acc.data.map Prod.fst :=
        List.mem_map.mpr ⟨x, hx, eq_of_beq hpx⟩
      rw [List.map_append, List.nodup_append] at h
      exact h.2.2 hx1 (by simp)
    have hstep : acc.set e.1 (g e.1) = ⟨acc.data ++ [e]⟩ := by
      show (⟨assocSet acc.data e.1 (g e.1)⟩ : ShimStringMap V) = _
      unfold assocSet
      rw [if_neg (by simp [hfresh])]
      rw [hg e (List.mem_cons_self e rest)]
    rw [List.foldl_cons, hstep, ih ⟨acc.data ++ [e]⟩ (by rwa
      [List.append_assoc, List.singleton_append])
      (fun x hx => hg x (List.mem_cons_of_mem e hx))]
    rw [List.append_assoc, List.singleton_append]

theorem mapLikeOfMap_eq_data {V : Type} (m : ShimStringMap V)
    (hWF : m.WF) : mapLikeOfMap m = m.data := by
  unfold mapLikeOfMap
  rw [foldl_assocSet_fresh m.data [] (by simpa using hWF)]
  rfl

theorem mapOfMapLike_data_eq {V : Type} (r : MapLike V)
    (hr : (r.map Prod.fst).Nodup) : mapOfMapLike r = ⟨r⟩ := by
  unfold mapOfMapLike
  rw [ShimStringMap.foldl_set_fresh r (fun k => mapLikeIndex r k)
    ShimStringMap.empty (by simpa using hr)
    (fun e he => ShimStringMap.get_of_mem ⟨r⟩ hr e.1 e.2 he)]
  rfl

/-- C10: converting a `StringMap` to a record and back is a round trip (the
result even coincides with the original map, hence is `_equalMaps`-equal to
it), and converting a duplicate-free record to a map and back returns a
record with exactly the same own fields and values. -/
theorem mapOfMapLike_mapLikeOfMap_roundTrip {V : Type} [DecidableEq V]
    (m : ShimStringMap V) (hWF : m.WF) (r : MapLike V)
    (hr : (r.map Prod.fst).Nodup) :
    mapOfMapLike (mapLikeOfMap m) = m ∧
    _equalMaps (some (mapOfMapLike (mapLikeOfMap m))) (some m) none = true ∧
    mapLikeOfMap (mapOfMapLike r) = r ∧
    (∀ k, hasProperty (mapLikeOfMap (mapOfMapLike r)) k = hasProperty r k ∧
      getProperty (mapLikeOfMap (mapOfMapLike r)) k = getProperty r k) := by
  have h1 : mapOfMapLike (mapLikeOfMap m) = m := by
    rw [mapLikeOfMap_eq_data m hWF, mapOfMapLike_data_eq m.data hWF]
  have h3 : mapLikeOfMap (mapOfMapLike r) = r := by
    rw [mapOfMapLike_data_eq r hr]
    exact mapLikeOfMap_eq_data ⟨r⟩ hr
  refine ⟨h1, ?_, h3, ?_⟩
  · rw [h1]
    simp [_equalMaps]
  · intro k
    rw [h3]
    exact ⟨rfl, rfl⟩

/-- Witness for C10 at the concrete map `{a ↦ 1}` and record `{b: 2}`. -/
theorem mapOfMapLike_mapLikeOfMap_roundTrip_witness :
    mapOfMapLike (mapLikeOfMap (ShimStringMap.mk [("a", some (1 : Nat))])) =
      ShimStringMap.mk [("a", some 1)] ∧
    _equalMaps
      (some (mapOfMapLike
        (mapLikeOfMap (ShimStringMap.mk [("a", some (1 : Nat))]))))
      (some (ShimStringMap.mk [("a", some 1)])) none = true ∧
    mapLikeOfMap (mapOfMapLike [("b", some (2 : Nat))]) =
      [("b", some 2)] ∧
    (∀ k, hasProperty (mapLikeOfMap (mapOfMapLike [("b", some (2 : Nat))])) k
        = hasProperty [("b", some 2)] k ∧
      getProperty (mapLikeOfMap (mapOfMapLike [("b", some (2 : Nat))])) k
        = getProperty [("b", some 2)] k) :=
  mapOfMapLike_mapLikeOfMap_roundTrip
    (ShimStringMap.mk [("a", some (1 : Nat))])
    (by show (List.map Prod.fst _).Nodup; decide)
    [("b", some (2 : Nat))] (by decide)

end Ts
